import Mathlib

/-!
Shallow embedding of the POLIPHONE analysis scripts
(`extract_IR.py` and `compute_channel_response.py`).

Numeric modelling choices, used throughout:
* numpy float arrays are modelled as `List ℚ` (exact arithmetic) for the
  structural/algebraic claims, as `List ℝ` where the mathematics is
  irrational (square roots, powers of ten), and as `List RFloat`
  (rationals extended with `+inf`, `-inf`, `nan`) where the claim is about
  IEEE non-finite propagation;
* Python slicing `a[i:j]` (with negative indices counted from the end and
  clamping) is embedded by `pySlice`;
* Python `int(...)` truncation is `pyInt`, Python floor division `//` is
  `Int.fdiv`, `np.arange(a, b)` is the half-open integer range.
-/

set_option maxHeartbeats 1000000

namespace Poliphone

/-- Python index normalisation for a slice bound on a sequence of length
`n`: a negative bound counts from the end, and bounds are clamped to
`[0, n]`. -/
def pyIdx (n : Nat) (i : Int) : Nat :=
  if i < 0 then ((n : Int) + i).toNat else min i.toNat n

/-- Python slice `l[start:stop]` (step 1). -/
def pySlice {α : Type} (l : List α) (start stop : Int) : List α :=
  (l.take (pyIdx l.length stop)).drop (pyIdx l.length start)

/-- Python slice `l[start:]`. -/
def pySliceFrom {α : Type} (l : List α) (start : Int) : List α :=
  l.drop (pyIdx l.length start)

/-- Python slice `l[:stop]`. -/
def pySliceTo {α : Type} (l : List α) (stop : Int) : List α :=
  l.take (pyIdx l.length stop)

/-- `np.mean` of a rational list (`sum / length`; the empty case inherits
Lean's `x / 0 = 0` junk value, flagged where it matters). -/
def listMean (l : List ℚ) : ℚ := l.sum / (l.length : ℚ)

/-- `nmse_error(signal, reference_signal)` from `extract_IR.py`:
`0` when the lengths differ, otherwise
`np.mean((signal - reference_signal)**2) /
 np.mean((reference_signal - np.mean(reference_signal))**2)`. -/
def nmse_error (signal reference_signal : List ℚ) : ℚ :=
  if signal.length ≠ reference_signal.length then 0
  else
    listMean (List.zipWith (fun a b => (a - b) ^ 2) signal reference_signal) /
      listMean (reference_signal.map (fun x => (x - listMean reference_signal) ^ 2))

/-! ## The alignment-error search of `process_device_signals` -/

/-- `shifts = np.arange(-200, 200)`: the integers `-200, …, 199`. -/
def shifts : List ℤ := (List.range 400).map (fun i : ℕ => -200 + (i : ℤ))

/-- The fixed device-window slice `win_device[200:-200]`. -/
def winDeviceTrim (win_device : List ℚ) : List ℚ :=
  pySlice win_device 200 (-200)

/-- The shift-adjusted reconstructed-window slice
`win_reconstructed[200 + shift : -200 + shift]`. -/
def winReconShift (win_reconstructed : List ℚ) (shift : ℤ) : List ℚ :=
  pySlice win_reconstructed (200 + shift) (-200 + shift)

/-- The per-window error list `err_list` of `process_device_signals`: one
`nmse_error` value for each element of `shifts`, in order. -/
def errListWin (win_reconstructed win_device : List ℚ) : List ℚ :=
  shifts.map (fun shift =>
    nmse_error (winReconShift win_reconstructed shift) (winDeviceTrim win_device))

/-- `10 * np.log10` into `WithBot ℝ`: the code's dB conversion, with
`10·log10 0 = -inf` modelled as `⊥`.  (`nmse_error` over exact rationals is
never negative, so the `nan` of a negative argument does not arise.) -/
noncomputable def toDb (q : ℚ) : WithBot ℝ :=
  if q ≤ 0 then ⊥ else ((10 * Real.log (q : ℝ) / Real.log 10 : ℝ) : WithBot ℝ)

/-- The per-window dB error curve `errors = 10 * np.log10(err_list)`. -/
noncomputable def errorsDbWin (win_reconstructed win_device : List ℚ) : List (WithBot ℝ) :=
  (errListWin win_reconstructed win_device).map toDb

/-- `np.argmin`: index of the first minimum of a list (`0` on `[]`). -/
def idxOfMin {α : Type} [LinearOrder α] : List α → Nat
  | [] => 0
  | [_] => 0
  | a :: b :: rest =>
    let k := idxOfMin (b :: rest)
    if a ≤ (b :: rest).getD k a then 0 else k + 1

/-- `err_pos = shifts[np.argmin(errors)]` of `process_device_signals`:
the recorded best shift of one analysis window. -/
noncomputable def bestShiftWin (win_reconstructed win_device : List ℚ) : ℤ :=
  shifts.getD (idxOfMin (errorsDbWin win_reconstructed win_device)) 0

/-! ## The margin cropping of `process_device_signals` -/

/-- `speech_device_mod = speech_device[margin:]`. -/
def speech_device_mod (speech_device : List ℚ) (margin : ℤ) : List ℚ :=
  pySliceFrom speech_device margin

/-- `speech_reconstructed_mod = speech_reconstructed[:-margin]`. -/
def speech_reconstructed_mod (speech_reconstructed : List ℚ) (margin : ℤ) : List ℚ :=
  pySliceTo speech_reconstructed (-margin)

/-! ## Windowing of `compute_channel_responses` -/

/-- Python `int(...)`: truncation toward zero of a rational. -/
def pyInt (q : ℚ) : ℤ := if q < 0 then -(⌊-q⌋) else ⌊q⌋

/-- `window_samples = int(signal_duration * sample_rate)`. -/
def window_samples (signal_duration sample_rate : ℚ) : ℤ :=
  pyInt (signal_duration * sample_rate)

/-- `overlap_samples = int(overlap_fraction * sample_rate)`. -/
def overlap_samples (overlap_fraction sample_rate : ℚ) : ℤ :=
  pyInt (overlap_fraction * sample_rate)

/-- `step_size = window_samples - overlap_samples`. -/
def step_size (signal_duration overlap_fraction sample_rate : ℚ) : ℤ :=
  window_samples signal_duration sample_rate - overlap_samples overlap_fraction sample_rate

/-- `num_windows = (len(signal) - overlap_samples) // step_size`
(Python floor division is `Int.fdiv`). -/
def num_windows (signalLen : ℕ) (signal_duration overlap_fraction sample_rate : ℚ) : ℤ :=
  Int.fdiv ((signalLen : ℤ) - overlap_samples overlap_fraction sample_rate)
    (step_size signal_duration overlap_fraction sample_rate)

/-- The windowed segments `signal[start:end]` for
`window_idx in range(num_windows)`, with `start = window_idx * step_size`
and `end = start + window_samples`. -/
def windowedSegments (signal : List ℚ) (signal_duration overlap_fraction sample_rate : ℚ) :
    List (List ℚ) :=
  (List.range (num_windows signal.length signal_duration overlap_fraction sample_rate).toNat).map
    (fun window_idx : ℕ =>
      pySlice signal
        ((window_idx : ℤ) * step_size signal_duration overlap_fraction sample_rate)
        ((window_idx : ℤ) * step_size signal_duration overlap_fraction sample_rate +
          window_samples signal_duration sample_rate))

/-! ## Thresholding and nan-mean of `compute_channel_responses`

The log-spectrogram is a matrix whose rows are frequency bins and whose
columns are STFT time frames; a cell dropped by
`log_spectrogram[log_spectrogram > threshold] = np.nan` is modelled as
`none`. -/

/-- `log_spectrogram[log_spectrogram > threshold] = np.nan`: every value
strictly greater than the threshold becomes missing. -/
def applyThreshold (threshold : ℚ) (log_spectrogram : List (List ℚ)) :
    List (List (Option ℚ)) :=
  log_spectrogram.map (fun row => row.map (fun v => if threshold < v then none else some v))

/-- `np.nanmean` of one row: the mean of the non-missing values, missing
(`none`) when every value is missing. -/
def nanmeanRow (row : List (Option ℚ)) : Option ℚ :=
  let vals := row.filterMap id
  if vals = [] then none else some (vals.sum / (vals.length : ℚ))

/-- `channel_response = np.nanmean(log_spectrogram, axis=1)` after
thresholding: the per-frequency-bin time average ignoring missing cells. -/
def channel_response (threshold : ℚ) (log_spectrogram : List (List ℚ)) : List (Option ℚ) :=
  (applyThreshold threshold log_spectrogram).map nanmeanRow

/-! ## The roll and split of `extract_ir_sweep`

The FFT/IFFT pair is an out-of-scope external primitive; the deconvolved
pre-roll impulse response `ir0 = np.real(scipy.fft.ifft(inv_sweep_fft *
sweep_fft))` enters the model as an arbitrary list whose length is the
inverse-sweep FFT size (the IFFT output-length contract). -/

/-- `np.roll(l, shift)` (flattened, axis `None`): element `i` of the result
is element `(i - shift) mod n` of the input. -/
def np_roll {α : Type} (l : List α) (shift : ℤ) : List α :=
  if l.length = 0 then l
  else
    let k := (shift % (l.length : ℤ)).toNat
    l.drop (l.length - k) ++ l.take (l.length - k)

/-- The roll-and-split tail of `extract_ir_sweep`: given the pre-roll
deconvolution result and the FFT size, returns `(ir_lin, ir_non_lin)` with
`ir = np.roll(ir0, fft_size // 2)`, `ir_lin = ir[len(ir)//2:]` and
`ir_non_lin = ir[:len(ir)//2]`. -/
def extract_ir_split (ir0 : List ℚ) (fft_size : ℕ) : List ℚ × List ℚ :=
  let ir := np_roll ir0 ((fft_size / 2 : ℕ) : ℤ)
  (ir.drop (ir.length / 2), ir.take (ir.length / 2))

/-! ## The RMS normalizer over exact reals

`normalize` of `extract_IR.py` and `normalize_audio` of
`compute_channel_response.py` are the same computation; the exact-arithmetic
claims about it are settled over `ℝ`. -/

/-- `normalize(signal, rms_level)`: `linear_rms = 10 ** (rms_level / 10.0)`,
`scaling_factor = np.sqrt((len(signal) * linear_rms ** 2) / np.sum(signal ** 2))`,
result `signal * scaling_factor`. -/
noncomputable def normalize (signal : List ℝ) (rms_level : ℝ) : List ℝ :=
  let linear_rms : ℝ := (10 : ℝ) ^ (rms_level / 10)
  let scaling_factor : ℝ :=
    Real.sqrt (((signal.length : ℝ) * linear_rms ^ 2) / (signal.map (fun x => x ^ 2)).sum)
  signal.map (fun x => x * scaling_factor)

/-- Root-mean-square amplitude of a signal (the spec's notion the
normalizer's output is measured by). -/
noncomputable def rms (signal : List ℝ) : ℝ :=
  Real.sqrt ((signal.map (fun x => x ^ 2)).sum / (signal.length : ℝ))

/-! ## An IEEE-style float model for the non-finite claims

`RFloat` is the reals extended with `+inf`, `-inf` and `nan`; its
operations follow IEEE-754 non-finite propagation (finite arithmetic kept
exact, signed zero not modelled — no operation below depends on it). -/

/-- A numpy double: a finite real, an infinity, or `nan`. -/
inductive RFloat : Type where
  | fin (x : ℝ) : RFloat
  | pinf : RFloat
  | ninf : RFloat
  | nan : RFloat

namespace RFloat

/-- Is the value finite (neither an infinity nor `nan`)? -/
def isFinite : RFloat → Prop
  | fin _ => True
  | _ => False

/-- IEEE addition. -/
noncomputable def add : RFloat → RFloat → RFloat
  | nan, _ => nan
  | _, nan => nan
  | pinf, ninf => nan
  | ninf, pinf => nan
  | pinf, _ => pinf
  | _, pinf => pinf
  | ninf, _ => ninf
  | _, ninf => ninf
  | fin a, fin b => fin (a + b)

/-- IEEE subtraction. -/
noncomputable def sub : RFloat → RFloat → RFloat
  | nan, _ => nan
  | _, nan => nan
  | pinf, pinf => nan
  | ninf, ninf => nan
  | pinf, _ => pinf
  | ninf, _ => ninf
  | _, pinf => ninf
  | _, ninf => pinf
  | fin a, fin b => fin (a - b)

/-- IEEE multiplication (`0 * inf = nan`). -/
noncomputable def mul : RFloat → RFloat → RFloat
  | nan, _ => nan
  | _, nan => nan
  | pinf, pinf => pinf
  | pinf, ninf => ninf
  | ninf, pinf => ninf
  | ninf, ninf => pinf
  | pinf, fin b => if b = 0 then nan else if 0 < b then pinf else ninf
  | fin a, pinf => if a = 0 then nan else if 0 < a then pinf else ninf
  | ninf, fin b => if b = 0 then nan else if 0 < b then ninf else pinf
  | fin a, ninf => if a = 0 then nan else if 0 < a then ninf else pinf
  | fin a, fin b => fin (a * b)

/-- IEEE division (`0/0 = nan`, `x/0 = ±inf` for finite `x ≠ 0`,
`inf/inf = nan`, `x/inf = 0`); the divisor zero is treated as `+0`. -/
noncomputable def div : RFloat → RFloat → RFloat
  | nan, _ => nan
  | _, nan => nan
  | pinf, pinf => nan
  | pinf, ninf => nan
  | ninf, pinf => nan
  | ninf, ninf => nan
  | pinf, fin b => if 0 ≤ b then pinf else ninf
  | ninf, fin b => if 0 ≤ b then ninf else pinf
  | fin _, pinf => fin 0
  | fin _, ninf => fin 0
  | fin a, fin b =>
      if b = 0 then (if a = 0 then nan else if 0 < a then pinf else ninf)
      else fin (a / b)

/-- IEEE square root (`sqrt(+inf) = +inf`, `sqrt` of `nan` or of a negative
value is `nan`). -/
noncomputable def sqrtF : RFloat → RFloat
  | nan => nan
  | pinf => pinf
  | ninf => nan
  | fin x => if x < 0 then nan else fin (Real.sqrt x)

end RFloat

/-- `np.sum` over the float model (sum starts at `0.0`). -/
noncomputable def sumF (l : List RFloat) : RFloat :=
  l.foldr RFloat.add (RFloat.fin 0)

/-- `np.mean` over the float model: `sum / length` (mean of an empty array
is `0/0 = nan`, as numpy warns and returns). -/
noncomputable def meanF (l : List RFloat) : RFloat :=
  RFloat.div (sumF l) (RFloat.fin (l.length : ℝ))

/-- The scaling factor of `normalize` over the float model:
`np.sqrt((len(signal) * linear_rms ** 2) / np.sum(signal ** 2))`. -/
noncomputable def scaling_factorF (signal : List RFloat) (rms_level : ℝ) : RFloat :=
  let linear_rms : RFloat := .fin ((10 : ℝ) ^ (rms_level / 10))
  RFloat.sqrtF
    (RFloat.div (RFloat.mul (.fin (signal.length : ℝ)) (RFloat.mul linear_rms linear_rms))
      (sumF (signal.map (fun s => RFloat.mul s s))))

/-- `normalize` over the float model: `signal * scaling_factor`. -/
noncomputable def normalizeF (signal : List RFloat) (rms_level : ℝ) : List RFloat :=
  signal.map (fun s => RFloat.mul s (scaling_factorF signal rms_level))

/-- `nmse_error` over the float model (same shape as `nmse_error`, with
IEEE arithmetic). -/
noncomputable def nmse_errorF (signal reference_signal : List RFloat) : RFloat :=
  if signal.length ≠ reference_signal.length then RFloat.fin 0
  else
    RFloat.div
      (meanF (List.zipWith (fun a b => RFloat.mul (RFloat.sub a b) (RFloat.sub a b))
        signal reference_signal))
      (meanF (reference_signal.map (fun x =>
        RFloat.mul (RFloat.sub x (meanF reference_signal))
          (RFloat.sub x (meanF reference_signal)))))

/-! ## Helper lemmas -/

/-- Membership in the shift search range: exactly the integers of the
half-open interval `[-200, 200)`. -/
lemma mem_shifts {z : ℤ} : z ∈ shifts ↔ -200 ≤ z ∧ z < 200 := by
  rw [shifts, List.mem_map]
  constructor
  · rintro ⟨i, hi, rfl⟩
    rw [List.mem_range] at hi
    omega
  · intro h
    refine ⟨(z + 200).toNat, ?_, ?_⟩
    · rw [List.mem_range]; omega
    · omega

/-- The shift list has 400 entries. -/
lemma shifts_length : shifts.length = 400 := by
  rw [shifts, List.length_map, List.length_range]

/-- The `i`-th element of the shift list is `-200 + i`. -/
lemma shifts_getD (i : ℕ) (hi : i < 400) (d : ℤ) : shifts.getD i d = -200 + (i : ℤ) := by
  have hlen : i < shifts.length := by rw [shifts_length]; exact hi
  rw [List.getD_eq_getElem _ _ hlen]
  simp only [shifts, List.getElem_map, List.getElem_range]

/-- `getD` at an in-range index does not depend on the default. -/
lemma getD_default_irrel {α : Type} (l : List α) (i : ℕ) (hi : i < l.length) (d d' : α) :
    l.getD i d = l.getD i d' := by
  rw [List.getD_eq_getElem _ _ hi, List.getD_eq_getElem _ _ hi]

/-- A list sum as a `Finset.range` sum of `getD` values. -/
lemma list_sum_eq_range_sum (l : List ℚ) :
    l.sum = ∑ i ∈ Finset.range l.length, l.getD i 0 := by
  induction l with
  | nil => simp
  | cons a t ih =>
    rw [List.sum_cons, ih, List.length_cons, Finset.sum_range_succ']
    simp [add_comm]

/-- A mapped list sum as a `Finset.range` sum of `getD` values. -/
lemma map_sum_eq_range_sum (g : ℚ → ℚ) (l : List ℚ) :
    (l.map g).sum = ∑ i ∈ Finset.range l.length, g (l.getD i 0) := by
  induction l with
  | nil => simp
  | cons a t ih =>
    rw [List.map_cons, List.sum_cons, ih, List.length_cons, Finset.sum_range_succ']
    simp [add_comm]

/-- A zipped sum over equal-length lists as a `Finset.range` sum. -/
lemma zipWith_sum_eq_range_sum (f : ℚ → ℚ → ℚ) :
    ∀ (s r : List ℚ), s.length = r.length →
      (List.zipWith f s r).sum = ∑ i ∈ Finset.range r.length, f (s.getD i 0) (r.getD i 0)
  | [], [], _ => by simp
  | [], _ :: _, h => by simp at h
  | _ :: _, [], h => by simp at h
  | a :: s, b :: r, h => by
    have hs : s.length = r.length := by simpa using h
    rw [List.zipWith_cons_cons, List.sum_cons, zipWith_sum_eq_range_sum f s r hs,
      List.length_cons, Finset.sum_range_succ']
    simp [add_comm]

/-- `getD` of a mapped list at an in-range index. -/
lemma getD_map_of_lt {α β : Type} (f : α → β) (l : List α) (i : ℕ) (hi : i < l.length)
    (d : β) (d' : α) : (l.map f).getD i d = f (l.getD i d') := by
  rw [List.getD_eq_getElem _ _ (by simpa using hi), List.getD_eq_getElem _ _ hi,
    List.getElem_map]

/-- The surviving (non-missing) values of a thresholded row are exactly the
values that are at most the threshold. -/
lemma filterMap_threshold (threshold : ℚ) (row : List ℚ) :
    (row.map (fun v => if threshold < v then none else some v)).filterMap id =
      row.filter (fun v => decide (v ≤ threshold)) := by
  induction row with
  | nil => rfl
  | cons a t ih =>
    by_cases h : threshold < a
    · simp [List.filter_cons, h, not_le.mpr h, ih]
    · simp [List.filter_cons, h, not_lt.mp h, ih]

/-- `np_roll` preserves length. -/
lemma np_roll_length {α : Type} (l : List α) (z : ℤ) : (np_roll l z).length = l.length := by
  rw [np_roll]
  split
  · rfl
  · rename_i h
    have hpos : (0 : ℤ) < (l.length : ℤ) := by omega
    have h1 := Int.emod_nonneg z (by omega : (l.length : ℤ) ≠ 0)
    have h2 := Int.emod_lt_of_pos z hpos
    simp only [List.length_append, List.length_drop, List.length_take]
    omega

/-- Unfolding `np_roll` on a nonempty list. -/
lemma np_roll_eq {α : Type} (l : List α) (z : ℤ) (h : l.length ≠ 0) :
    np_roll l z =
      l.drop (l.length - (z % (l.length : ℤ)).toNat) ++
        l.take (l.length - (z % (l.length : ℤ)).toNat) := by
  rw [np_roll, if_neg h]

/-- Rolling by `z` and then by `-z` is the identity (the inverse-roll
round-trip). -/
lemma np_roll_np_roll {α : Type} (l : List α) (z : ℤ) :
    np_roll (np_roll l z) (-z) = l := by
  by_cases h0 : l.length = 0
  · rw [List.length_eq_zero.mp h0]
    rfl
  · have hnpos : (0 : ℤ) < (l.length : ℤ) := by omega
    have hnne : ((l.length : ℤ)) ≠ 0 := by omega
    have hr0 : 0 ≤ z % (l.length : ℤ) := Int.emod_nonneg z hnne
    have hrlt : z % (l.length : ℤ) < (l.length : ℤ) := Int.emod_lt_of_pos z hnpos
    have hr'0 : 0 ≤ (-z) % (l.length : ℤ) := Int.emod_nonneg _ hnne
    have hr'lt : (-z) % (l.length : ℤ) < (l.length : ℤ) := Int.emod_lt_of_pos _ hnpos
    have hsum : (z % (l.length : ℤ) + (-z) % (l.length : ℤ)) % (l.length : ℤ) = 0 := by
      rw [← Int.add_emod]
      simp
    obtain ⟨c, hc⟩ := Int.dvd_of_emod_eq_zero hsum
    have hc0 : 0 ≤ c := by nlinarith
    have hc2 : c < 2 := by nlinarith
    have hlen1 : (np_roll l z).length = l.length := np_roll_length l z
    rcases (by omega : c = 0 ∨ c = 1) with hcv | hcv
    · -- both remainders are zero: both rolls are the identity
      rw [hcv, mul_zero] at hc
      have hz : (z % (l.length : ℤ)).toNat = 0 := by omega
      have hz' : ((-z) % (l.length : ℤ)).toNat = 0 := by omega
      have hid : np_roll l z = l := by
        rw [np_roll_eq l z h0, hz]
        simp
      rw [hid, np_roll_eq l (-z) h0, hz']
      simp
    · -- the remainders add to the length: the second roll undoes the first
      rw [hcv, mul_one] at hc
      have hk : (z % (l.length : ℤ)).toNat +
          ((-z) % (l.length : ℤ)).toNat = l.length := by omega
      rw [np_roll_eq l z h0]
      have hlen2 : (l.drop (l.length - (z % (l.length : ℤ)).toNat) ++
          l.take (l.length - (z % (l.length : ℤ)).toNat)).length = l.length := by
        simp only [List.length_append, List.length_drop, List.length_take]
        omega
      rw [np_roll_eq _ (-z) (by rw [hlen2]; exact h0), hlen2]
      have harg : l.length - ((-z) % (l.length : ℤ)).toNat =
          (z % (l.length : ℤ)).toNat := by omega
      rw [harg]
      have hdlen : (l.drop (l.length - (z % (l.length : ℤ)).toNat)).length =
          (z % (l.length : ℤ)).toNat := by
        rw [List.length_drop]
        omega
      rw [List.drop_left' hdlen, List.take_left' hdlen]
      exact List.take_append_drop _ l

/-- `idxOfMin` of a nonempty list is a valid index. -/
lemma idxOfMin_lt_length {α : Type} [LinearOrder α] :
    ∀ (l : List α), l ≠ [] → idxOfMin l < l.length
  | [], h => absurd rfl h
  | [_], _ => by simp [idxOfMin]
  | a :: b :: rest, _ => by
    simp only [idxOfMin]
    split
    · simp
    · have := idxOfMin_lt_length (b :: rest) (by simp)
      simp only [List.length_cons] at this ⊢
      omega

/-- The value at `idxOfMin` is a minimum of the list. -/
lemma idxOfMin_getD_le {α : Type} [LinearOrder α] (d : α) :
    ∀ (l : List α) (j : ℕ), j < l.length → l.getD (idxOfMin l) d ≤ l.getD j d
  | [], j, hj => by simp at hj
  | [a], j, hj => by
    have hj0 : j = 0 := by
      simp only [List.length_singleton] at hj
      omega
    subst hj0
    simp [idxOfMin]
  | a :: b :: rest, j, hj => by
    have hne : (b :: rest) ≠ [] := by simp
    have hklt : idxOfMin (b :: rest) < (b :: rest).length := idxOfMin_lt_length _ hne
    have hd : (b :: rest).getD (idxOfMin (b :: rest)) a =
        (b :: rest).getD (idxOfMin (b :: rest)) d := getD_default_irrel _ _ hklt _ _
    simp only [idxOfMin]
    by_cases hc : a ≤ (b :: rest).getD (idxOfMin (b :: rest)) a
    · rw [if_pos hc]
      cases j with
      | zero => simp
      | succ j' =>
        have hj' : j' < (b :: rest).length := by simpa using hj
        calc (a :: b :: rest).getD 0 d = a := rfl
          _ ≤ (b :: rest).getD (idxOfMin (b :: rest)) d := by rw [← hd]; exact hc
          _ ≤ (b :: rest).getD j' d := idxOfMin_getD_le d (b :: rest) j' hj'
          _ = (a :: b :: rest).getD (j' + 1) d := rfl
    · rw [if_neg hc]
      push_neg at hc
      cases j with
      | zero =>
        calc (a :: b :: rest).getD (idxOfMin (b :: rest) + 1) d
            = (b :: rest).getD (idxOfMin (b :: rest)) d := rfl
          _ ≤ a := by rw [← hd]; exact le_of_lt hc
          _ = (a :: b :: rest).getD 0 d := rfl
      | succ j' =>
        have hj' : j' < (b :: rest).length := by simpa using hj
        exact idxOfMin_getD_le d (b :: rest) j' hj'

/-- The length of a Python slice with ordered, in-range, nonnegative
bounds. -/
lemma pySlice_length {α : Type} (l : List α) (a b : ℤ)
    (ha : 0 ≤ a) (hab : a ≤ b) (hb : b ≤ (l.length : ℤ)) :
    ((pySlice l a b).length : ℤ) = b - a := by
  have hA : pyIdx l.length a = a.toNat := by
    rw [pyIdx, if_neg (by omega)]
    omega
  have hB : pyIdx l.length b = b.toNat := by
    rw [pyIdx, if_neg (by omega)]
    omega
  rw [pySlice, List.length_drop, List.length_take, hA, hB]
  omega

/-- Sum of squares of a uniformly scaled signal. -/
lemma sum_sq_map_mul (l : List ℝ) (a : ℝ) :
    ((l.map (fun x => x * a)).map (fun x => x ^ 2)).sum =
      a ^ 2 * (l.map (fun x => x ^ 2)).sum := by
  induction l with
  | nil => simp
  | cons x t ih =>
    simp only [List.map_cons, List.sum_cons, ih]
    ring

/-- Finite × finite multiplication in the float model. -/
lemma mul_fin (a b : ℝ) : RFloat.mul (.fin a) (.fin b) = .fin (a * b) := rfl

/-- Finite + finite addition in the float model. -/
lemma add_fin (a b : ℝ) : RFloat.add (.fin a) (.fin b) = .fin (a + b) := rfl

/-- Finite − finite subtraction in the float model. -/
lemma sub_fin (a b : ℝ) : RFloat.sub (.fin a) (.fin b) = .fin (a - b) := rfl

/-- Finite ÷ nonzero finite division in the float model. -/
lemma div_fin (a b : ℝ) (hb : b ≠ 0) : RFloat.div (.fin a) (.fin b) = .fin (a / b) := by
  simp [RFloat.div, hb]

/-- `sumF` over a cons. -/
lemma sumF_cons (a : RFloat) (l : List RFloat) : sumF (a :: l) = RFloat.add a (sumF l) := rfl

/-- Dividing anything by the finite zero is never finite (IEEE: `0/0` is
`nan`, anything else over zero is an infinity or `nan`). -/
lemma div_fin_zero_not_finite (a : RFloat) : ¬ (RFloat.div a (RFloat.fin 0)).isFinite := by
  cases a with
  | fin x =>
    rw [RFloat.div]
    split_ifs <;> simp_all [RFloat.isFinite]
  | pinf => simp [RFloat.div, RFloat.isFinite]
  | ninf => simp [RFloat.div, RFloat.isFinite]
  | nan => simp [RFloat.div, RFloat.isFinite]

/-- The float-model sum of squares of an all-zero signal is the finite
zero. -/
lemma sumF_sq_all_zero (l : List RFloat) (hz : ∀ s ∈ l, s = RFloat.fin 0) :
    sumF (l.map (fun s => RFloat.mul s s)) = RFloat.fin 0 := by
  induction l with
  | nil => rfl
  | cons a t ih =>
    have ha : a = RFloat.fin 0 := hz a (by simp)
    have ht : ∀ s ∈ t, s = RFloat.fin 0 := fun s hs => hz s (by simp [hs])
    rw [List.map_cons, sumF_cons, ih ht, ha, mul_fin, add_fin]
    norm_num

/-- The float-model sum of a constant list. -/
lemma sumF_const (c : ℝ) (l : List RFloat) (hc : ∀ x ∈ l, x = RFloat.fin c) :
    sumF l = RFloat.fin ((l.length : ℝ) * c) := by
  induction l with
  | nil =>
    show RFloat.fin 0 = _
    norm_num
  | cons a t ih =>
    have ha : a = RFloat.fin c := hc a (by simp)
    have ht : ∀ x ∈ t, x = RFloat.fin c := fun x hx => hc x (by simp [hx])
    rw [sumF_cons, ih ht, ha, add_fin]
    congr 1
    simp only [List.length_cons]
    push_cast
    ring

/-- The float-model mean of a nonempty constant list is that constant. -/
lemma meanF_const (c : ℝ) (l : List RFloat) (hne : l ≠ []) (hc : ∀ x ∈ l, x = RFloat.fin c) :
    meanF l = RFloat.fin c := by
  have hN : ((l.length : ℝ)) ≠ 0 := by
    have := List.length_pos.mpr hne
    positivity
  rw [meanF, sumF_const c l hc, div_fin _ _ hN]
  rw [mul_div_cancel_left₀ _ hN]

/-- The float-model variance denominator of a nonempty constant reference
is the finite zero. -/
lemma variance_denominatorF_zero (c : ℝ) (l : List RFloat) (hne : l ≠ [])
    (hc : ∀ x ∈ l, x = RFloat.fin c) :
    meanF (l.map (fun x =>
      RFloat.mul (RFloat.sub x (meanF l)) (RFloat.sub x (meanF l)))) = RFloat.fin 0 := by
  have hm := meanF_const c l hne hc
  have hmap : ∀ y ∈ l.map (fun x =>
      RFloat.mul (RFloat.sub x (meanF l)) (RFloat.sub x (meanF l))), y = RFloat.fin 0 := by
    intro y hy
    obtain ⟨x, hx, rfl⟩ := List.mem_map.mp hy
    rw [hc x hx, hm, sub_fin, mul_fin]
    norm_num
  have hlen : l.map (fun x =>
      RFloat.mul (RFloat.sub x (meanF l)) (RFloat.sub x (meanF l))) ≠ [] := by
    simpa using hne
  exact meanF_const 0 _ hlen hmap

/-! ## Claim theorems -/

/-- C2 (code bug at the failing input): with margin `0` (the default), the
device signal is returned whole, but `speech_reconstructed[:-0]` is the
EMPTY sequence, not the unchanged signal the claim states; with margin `1`
the intended "drop the last `margin` samples" behaviour does hold. -/
theorem c2_margin_zero_bug :
    speech_device_mod [1, 2, 3] 0 = ([1, 2, 3] : List ℚ)
  ∧ speech_reconstructed_mod [1, 2, 3] 0 = ([] : List ℚ)
  ∧ speech_reconstructed_mod [1, 2, 3] 1 = ([1, 2] : List ℚ) := by
  decide

/-- C3: for equal-length inputs `nmse_error` is the mean squared difference
divided by the variance of the reference (written here as explicit
`Finset.range` sums); for mismatched lengths it is exactly `0`, the same
value a genuine perfect match produces (sentinel indistinguishability,
shown on `[0,1]` against itself versus `[0,1]` against `[0,1,2]`). -/
theorem c3_nmse_formula (signal reference_signal : List ℚ) :
    (signal.length = reference_signal.length →
      nmse_error signal reference_signal =
        ((∑ i ∈ Finset.range reference_signal.length,
            (signal.getD i 0 - reference_signal.getD i 0) ^ 2) /
          (reference_signal.length : ℚ)) /
        ((∑ i ∈ Finset.range reference_signal.length,
            (reference_signal.getD i 0 -
              (∑ j ∈ Finset.range reference_signal.length, reference_signal.getD j 0) /
                (reference_signal.length : ℚ)) ^ 2) /
          (reference_signal.length : ℚ)))
  ∧ (signal.length ≠ reference_signal.length → nmse_error signal reference_signal = 0)
  ∧ nmse_error [0, 1] [0, 1] = 0
  ∧ nmse_error [0, 1] [0, 1, 2] = 0 := by
  refine ⟨?_, ?_, by norm_num [nmse_error, listMean], by norm_num [nmse_error]⟩
  · intro h
    rw [nmse_error, if_neg (fun hne => hne h)]
    rw [listMean, listMean, listMean, zipWith_sum_eq_range_sum _ _ _ h,
      map_sum_eq_range_sum, list_sum_eq_range_sum,
      List.length_zipWith, List.length_map, h, min_self]
  · intro h
    rw [nmse_error, if_pos h]

/-- C1 counterexample: the claimed inclusive search range `[-200, +200]` is
not what the code enumerates — `np.arange(-200, 200)` excludes `+200`, so
the error list has 400 entries (one per shift `-200 … 199`), not 401. -/
theorem c1_range_counterexample :
    (200 : ℤ) ∉ shifts
  ∧ shifts.length = 400
  ∧ (errListWin (List.replicate 410 0) (List.replicate 410 1)).length = 400 := by
  refine ⟨fun h => absurd (mem_shifts.mp h).2 (by omega), shifts_length, ?_⟩
  rw [errListWin, List.length_map, shifts_length]

/-- C5 counterexample: at duration `8/5` s and sample rate `1` Hz the code's
window length `int(signal_duration * sample_rate)` truncates `1.6` to `1`,
while the claimed `round(windowDuration * sampleRate)` is `2`. -/
theorem c5_round_counterexample :
    window_samples (8 / 5) 1 = 1
  ∧ round ((8 / 5 : ℚ) * 1) = 2
  ∧ window_samples (8 / 5) 1 ≠ round ((8 / 5 : ℚ) * 1) := by
  norm_num [window_samples, pyInt, round_eq]

/-- C6: thresholding marks exactly the strictly-greater values missing
(values equal to the threshold survive); each ChannelResponse entry is the
mean over only that frequency bin's surviving values; and a bin with no
surviving value yields a missing entry (`none`), not zero. -/
theorem c6_threshold_and_nanmean (threshold : ℚ) (log_spectrogram : List (List ℚ)) :
    (∀ i j : ℕ, i < log_spectrogram.length → j < (log_spectrogram.getD i []).length →
      (((applyThreshold threshold log_spectrogram).getD i []).getD j none = none ↔
        threshold < (log_spectrogram.getD i []).getD j 0))
  ∧ (∀ i : ℕ, i < log_spectrogram.length →
      (channel_response threshold log_spectrogram).getD i none =
        (if (log_spectrogram.getD i []).filter (fun v => decide (v ≤ threshold)) = [] then
          none
        else
          some (((log_spectrogram.getD i []).filter (fun v => decide (v ≤ threshold))).sum /
            (((log_spectrogram.getD i []).filter (fun v => decide (v ≤ threshold))).length :
              ℚ))))
  ∧ (∀ i : ℕ, i < log_spectrogram.length →
      (∀ v ∈ log_spectrogram.getD i [], threshold < v) →
      (channel_response threshold log_spectrogram).getD i none = none) := by
  have hrow : ∀ i : ℕ, i < log_spectrogram.length →
      (applyThreshold threshold log_spectrogram).getD i [] =
        (log_spectrogram.getD i []).map
          (fun v => if threshold < v then none else some v) := by
    intro i hi
    rw [applyThreshold]
    exact getD_map_of_lt _ _ i hi _ []
  have hresp : ∀ i : ℕ, i < log_spectrogram.length →
      (channel_response threshold log_spectrogram).getD i none =
        nanmeanRow ((log_spectrogram.getD i []).map
          (fun v => if threshold < v then none else some v)) := by
    intro i hi
    rw [channel_response,
      getD_map_of_lt nanmeanRow _ i (by simpa [applyThreshold] using hi) none [],
      hrow i hi]
  refine ⟨?_, ?_, ?_⟩
  · intro i j hi hj
    rw [hrow i hi, getD_map_of_lt _ _ j hj none 0]
    split_ifs with h
    · simpa using h
    · simpa using h
  · intro i hi
    rw [hresp i hi, nanmeanRow, filterMap_threshold]
  · intro i hi hall
    have hfil : (log_spectrogram.getD i []).filter (fun v => decide (v ≤ threshold)) = [] := by
      rw [List.filter_eq_nil_iff]
      intro a ha
      simpa using not_le.mpr (hall a ha)
    rw [hresp i hi, nanmeanRow, filterMap_threshold, hfil]
    rfl

/-- C7: concatenating `ir_non_lin` (the first half) and `ir_lin` (the
second half) and circularly rolling back by half the FFT size reproduces
the pre-roll deconvolution result exactly, and the two components together
have exactly the inverse-sweep FFT size many samples. -/
theorem c7_ir_roll_roundtrip (ir0 : List ℚ) (fft_size : ℕ) (h : ir0.length = fft_size) :
    np_roll ((extract_ir_split ir0 fft_size).2 ++ (extract_ir_split ir0 fft_size).1)
        (-((fft_size / 2 : ℕ) : ℤ)) = ir0
  ∧ (extract_ir_split ir0 fft_size).1.length + (extract_ir_split ir0 fft_size).2.length =
      fft_size := by
  have hm : (np_roll ir0 ((fft_size / 2 : ℕ) : ℤ)).length = fft_size := by
    rw [np_roll_length, h]
  constructor
  · have hsplit : (extract_ir_split ir0 fft_size).2 ++ (extract_ir_split ir0 fft_size).1 =
        np_roll ir0 ((fft_size / 2 : ℕ) : ℤ) := by
      simp only [extract_ir_split]
      exact List.take_append_drop _ _
    rw [hsplit, np_roll_np_roll]
  · simp only [extract_ir_split, List.length_drop, List.length_take, hm]
    omega

/-- C7 witness: the round-trip at the concrete pre-roll response
`[1, 2, 3, 4]` with FFT size `4`. -/
theorem c7_witness :
    np_roll ((extract_ir_split ([1, 2, 3, 4] : List ℚ) 4).2 ++
        (extract_ir_split ([1, 2, 3, 4] : List ℚ) 4).1) (-(((4 : ℕ) / 2 : ℕ) : ℤ)) =
      ([1, 2, 3, 4] : List ℚ)
  ∧ (extract_ir_split ([1, 2, 3, 4] : List ℚ) 4).1.length +
      (extract_ir_split ([1, 2, 3, 4] : List ℚ) 4).2.length = 4 :=
  c7_ir_roll_roundtrip [1, 2, 3, 4] 4 rfl

/-- C1 (amended): the search enumerates every integer shift in the
half-open range `[-200, 200)` (the code's `np.arange(-200, 200)`, upper
endpoint excluded); entry `i` of the per-window error list is the NMSE of
the reconstructed slice `[200+shift : -200+shift]` against the fixed
device slice `[200 : -200]` for `shift = -200 + i`; and the recorded best
shift is the argmin of the dB error curve over that whole range. -/
theorem c1_alignment_search (win_reconstructed win_device : List ℚ) :
    (∀ z : ℤ, z ∈ shifts ↔ -200 ≤ z ∧ z < 200)
  ∧ (errListWin win_reconstructed win_device).length = 400
  ∧ (∀ i : ℕ, i < 400 →
      (errListWin win_reconstructed win_device).getD i 0 =
        nmse_error
          (pySlice win_reconstructed (200 + (-200 + (i : ℤ))) (-200 + (-200 + (i : ℤ))))
          (pySlice win_device 200 (-200)))
  ∧ bestShiftWin win_reconstructed win_device =
      -200 + (idxOfMin (errorsDbWin win_reconstructed win_device) : ℤ)
  ∧ (-200 ≤ bestShiftWin win_reconstructed win_device ∧
      bestShiftWin win_reconstructed win_device < 200)
  ∧ (∀ j : ℕ, j < 400 →
      (errorsDbWin win_reconstructed win_device).getD
          (idxOfMin (errorsDbWin win_reconstructed win_device)) ⊥ ≤
        (errorsDbWin win_reconstructed win_device).getD j ⊥) := by
  have hlenE : (errListWin win_reconstructed win_device).length = 400 := by
    rw [errListWin, List.length_map, shifts_length]
  have hlenD : (errorsDbWin win_reconstructed win_device).length = 400 := by
    rw [errorsDbWin, List.length_map, hlenE]
  have hidx : idxOfMin (errorsDbWin win_reconstructed win_device) < 400 := by
    have hne : errorsDbWin win_reconstructed win_device ≠ [] := by
      intro hnil
      rw [hnil] at hlenD
      simp at hlenD
    have := idxOfMin_lt_length _ hne
    omega
  refine ⟨fun z => mem_shifts, hlenE, ?_, ?_, ?_, ?_⟩
  · intro i hi
    rw [errListWin, getD_map_of_lt _ shifts i (by rw [shifts_length]; exact hi) 0 0,
      shifts_getD i hi]
    rfl
  · rw [bestShiftWin, shifts_getD _ hidx]
  · rw [bestShiftWin, shifts_getD _ hidx]
    omega
  · intro j hj
    exact idxOfMin_getD_le ⊥ _ j (by omega)

/-- C5 (amended): the window length is the int-truncation
`int(windowDuration · sampleRate)` (not `round`), the step is that window
length minus `int(overlapFraction · sampleRate)`; with a positive step and
`0 ≤ overlapSamples ≤ len(signal)`, the number of full windows produced is
`floor((len(signal) − overlapSamples) / step)`, every produced window is
full (the trailing partial window is dropped), and each ChannelResponse
vector has length `nFft/2 + 1` given the STFT's `nFft/2 + 1` frequency
rows. -/
theorem c5_windowing (signal : List ℚ) (signal_duration overlap_fraction sample_rate : ℚ)
    (n_fft : ℕ) (log_spectrogram : List (List ℚ)) (threshold : ℚ)
    (hov : 0 ≤ overlap_samples overlap_fraction sample_rate)
    (hstep : 0 < step_size signal_duration overlap_fraction sample_rate)
    (hlen : overlap_samples overlap_fraction sample_rate ≤ (signal.length : ℤ))
    (hspect : log_spectrogram.length = n_fft / 2 + 1) :
    window_samples signal_duration sample_rate = pyInt (signal_duration * sample_rate)
  ∧ ((windowedSegments signal signal_duration overlap_fraction sample_rate).length : ℤ) =
      Int.fdiv ((signal.length : ℤ) - overlap_samples overlap_fraction sample_rate)
        (step_size signal_duration overlap_fraction sample_rate)
  ∧ (∀ w ∈ windowedSegments signal signal_duration overlap_fraction sample_rate,
      (w.length : ℤ) = window_samples signal_duration sample_rate)
  ∧ (channel_response threshold log_spectrogram).length = n_fft / 2 + 1 := by
  have hws : window_samples signal_duration sample_rate =
      step_size signal_duration overlap_fraction sample_rate +
        overlap_samples overlap_fraction sample_rate := by
    rw [step_size]
    ring
  have hfd : num_windows signal.length signal_duration overlap_fraction sample_rate =
      ((signal.length : ℤ) - overlap_samples overlap_fraction sample_rate) /
        step_size signal_duration overlap_fraction sample_rate := by
    rw [num_windows, Int.fdiv_eq_ediv _ (le_of_lt hstep)]
  have hk0 : 0 ≤ ((signal.length : ℤ) - overlap_samples overlap_fraction sample_rate) /
      step_size signal_duration overlap_fraction sample_rate :=
    Int.ediv_nonneg (by omega) (le_of_lt hstep)
  have hkmul : step_size signal_duration overlap_fraction sample_rate *
      (((signal.length : ℤ) - overlap_samples overlap_fraction sample_rate) /
        step_size signal_duration overlap_fraction sample_rate) ≤
      (signal.length : ℤ) - overlap_samples overlap_fraction sample_rate := by
    have h1 := Int.ediv_add_emod
      ((signal.length : ℤ) - overlap_samples overlap_fraction sample_rate)
      (step_size signal_duration overlap_fraction sample_rate)
    have h2 := Int.emod_nonneg
      ((signal.length : ℤ) - overlap_samples overlap_fraction sample_rate)
      (by omega : step_size signal_duration overlap_fraction sample_rate ≠ 0)
    omega
  have hcount : ((windowedSegments signal signal_duration overlap_fraction
      sample_rate).length : ℤ) =
      Int.fdiv ((signal.length : ℤ) - overlap_samples overlap_fraction sample_rate)
        (step_size signal_duration overlap_fraction sample_rate) := by
    rw [windowedSegments, List.length_map, List.length_range,
      Int.fdiv_eq_ediv _ (le_of_lt hstep), hfd]
    omega
  refine ⟨rfl, hcount, ?_, ?_⟩
  · intro w hw
    rw [windowedSegments] at hw
    obtain ⟨i, hi, rfl⟩ := List.mem_map.mp hw
    rw [List.mem_range, hfd] at hi
    have hi' : (i : ℤ) + 1 ≤
        ((signal.length : ℤ) - overlap_samples overlap_fraction sample_rate) /
          step_size signal_duration overlap_fraction sample_rate := by omega
    have hmul : ((i : ℤ) + 1) * step_size signal_duration overlap_fraction sample_rate ≤
        (((signal.length : ℤ) - overlap_samples overlap_fraction sample_rate) /
          step_size signal_duration overlap_fraction sample_rate) *
          step_size signal_duration overlap_fraction sample_rate :=
      mul_le_mul_of_nonneg_right hi' (le_of_lt hstep)
    have hend : (i : ℤ) * step_size signal_duration overlap_fraction sample_rate +
        window_samples signal_duration sample_rate ≤ (signal.length : ℤ) := by
      nlinarith [hkmul, hws]
    have hstart : (0 : ℤ) ≤ (i : ℤ) * step_size signal_duration overlap_fraction
        sample_rate := by positivity
    rw [pySlice_length signal _ _ hstart (by omega) hend]
    ring
  · rw [channel_response, List.length_map, applyThreshold, List.length_map, hspect]

/-- C5 witness: ten samples at one hertz, four-second windows with one
second of overlap, and a three-row spectrogram for `n_fft = 4`. -/
theorem c5_windowing_witness :
    window_samples 4 1 = pyInt (4 * 1)
  ∧ ((windowedSegments ([0, 0, 0, 0, 0, 0, 0, 0, 0, 0] : List ℚ) 4 1 1).length : ℤ) =
      Int.fdiv ((([0, 0, 0, 0, 0, 0, 0, 0, 0, 0] : List ℚ).length : ℤ) - overlap_samples 1 1)
        (step_size 4 1 1)
  ∧ (∀ w ∈ windowedSegments ([0, 0, 0, 0, 0, 0, 0, 0, 0, 0] : List ℚ) 4 1 1,
      (w.length : ℤ) = window_samples 4 1)
  ∧ (channel_response 0 [[], [], []]).length = 4 / 2 + 1 :=
  c5_windowing [0, 0, 0, 0, 0, 0, 0, 0, 0, 0] 4 1 1 4 [[], [], []] 0
    (by norm_num [overlap_samples, pyInt])
    (by norm_num [step_size, window_samples, overlap_samples, pyInt])
    (by norm_num [overlap_samples, pyInt])
    rfl

/-- C4: for every signal with positive energy and every target level, the
normalizer scales the input by
`sqrt(len(signal) · r² / Σ x²)` with `r = 10^(level/10)`, and the RMS of
the output equals `r` exactly in exact arithmetic. -/
theorem c4_normalize_rms (signal : List ℝ) (rms_level : ℝ)
    (h : 0 < (signal.map (fun x => x ^ 2)).sum) :
    normalize signal rms_level =
      signal.map (fun x => x *
        Real.sqrt (((signal.length : ℝ) * ((10 : ℝ) ^ (rms_level / 10)) ^ 2) /
          (signal.map (fun x => x ^ 2)).sum))
  ∧ rms (normalize signal rms_level) = (10 : ℝ) ^ (rms_level / 10) := by
  have hne : signal ≠ [] := by
    rintro rfl
    simp at h
  have hN : 0 < (signal.length : ℝ) := by
    have := List.length_pos.mpr hne
    exact_mod_cast this
  have hr : 0 < (10 : ℝ) ^ (rms_level / 10) := Real.rpow_pos_of_pos (by norm_num) _
  have hT : 0 ≤ ((signal.length : ℝ) * ((10 : ℝ) ^ (rms_level / 10)) ^ 2) /
      (signal.map (fun x => x ^ 2)).sum := by positivity
  refine ⟨rfl, ?_⟩
  simp only [rms, normalize]
  rw [sum_sq_map_mul, List.length_map, Real.sq_sqrt hT,
    div_mul_cancel₀ _ h.ne', mul_div_cancel_left₀ _ hN.ne', Real.sqrt_sq hr.le]

/-- C4 witness: the one-sample signal `[1]` normalized to `0` dB. -/
theorem c4_normalize_rms_witness :
    (normalize [1] 0 =
      ([1] : List ℝ).map (fun x => x *
        Real.sqrt (((([1] : List ℝ).length : ℝ) * ((10 : ℝ) ^ ((0 : ℝ) / 10)) ^ 2) /
          (([1] : List ℝ).map (fun x => x ^ 2)).sum)))
  ∧ rms (normalize [1] 0) = (10 : ℝ) ^ ((0 : ℝ) / 10) :=
  c4_normalize_rms [1] 0 (by simp)

/-- C9: the normalizer is idempotent on positive-energy signals at a fixed
target level, in exact arithmetic. -/
theorem c9_normalize_idempotent (signal : List ℝ) (rms_level : ℝ)
    (h : 0 < (signal.map (fun x => x ^ 2)).sum) :
    normalize (normalize signal rms_level) rms_level = normalize signal rms_level := by
  have hne : signal ≠ [] := by
    rintro rfl
    simp at h
  have hN : 0 < (signal.length : ℝ) := by
    have := List.length_pos.mpr hne
    exact_mod_cast this
  have hr : 0 < (10 : ℝ) ^ (rms_level / 10) := Real.rpow_pos_of_pos (by norm_num) _
  have hT : 0 ≤ ((signal.length : ℝ) * ((10 : ℝ) ^ (rms_level / 10)) ^ 2) /
      (signal.map (fun x => x ^ 2)).sum := by positivity
  have hlen2 : ((normalize signal rms_level).length : ℝ) = (signal.length : ℝ) := by
    simp [normalize]
  have hsum2 : ((normalize signal rms_level).map (fun x => x ^ 2)).sum =
      ((signal.length : ℝ) * ((10 : ℝ) ^ (rms_level / 10)) ^ 2 /
        (signal.map (fun x => x ^ 2)).sum) * (signal.map (fun x => x ^ 2)).sum := by
    simp only [normalize]
    rw [sum_sq_map_mul, Real.sq_sqrt hT]
  have key : Real.sqrt ((((normalize signal rms_level).length : ℝ) *
      ((10 : ℝ) ^ (rms_level / 10)) ^ 2) /
        ((normalize signal rms_level).map (fun x => x ^ 2)).sum) = 1 := by
    rw [hlen2, hsum2, div_mul_cancel₀ _ h.ne',
      div_self (by positivity : (signal.length : ℝ) * ((10 : ℝ) ^ (rms_level / 10)) ^ 2 ≠ 0),
      Real.sqrt_one]
  calc normalize (normalize signal rms_level) rms_level
      = (normalize signal rms_level).map (fun x => x *
          Real.sqrt ((((normalize signal rms_level).length : ℝ) *
            ((10 : ℝ) ^ (rms_level / 10)) ^ 2) /
              ((normalize signal rms_level).map (fun x => x ^ 2)).sum)) := rfl
    _ = normalize signal rms_level := by
        rw [key]
        simp

/-- C9 witness: re-normalizing `[1]` at `0` dB returns the same list. -/
theorem c9_normalize_idempotent_witness :
    normalize (normalize [1] 0) 0 = normalize [1] 0 :=
  c9_normalize_idempotent [1] 0 (by simp)

/-- C8: on an all-zero signal of any length, the normalizer's denominator
is the finite zero, the division by it makes the scaling factor non-finite
(`+inf` for a nonempty signal, `nan` for the empty one), every returned
sample is `nan`, and the computation returns normally - the embedding is a
total function with no error outcome, matching the code, which raises
nothing. -/
theorem c8_all_zero_silent_nan (signal : List RFloat) (rms_level : ℝ)
    (hz : ∀ s ∈ signal, s = RFloat.fin 0) :
    sumF (signal.map (fun s => RFloat.mul s s)) = RFloat.fin 0
  ∧ (scaling_factorF signal rms_level = RFloat.pinf ∨
      scaling_factorF signal rms_level = RFloat.nan)
  ∧ ∀ y ∈ normalizeF signal rms_level, y = RFloat.nan := by
  have hsum := sumF_sq_all_zero signal hz
  have hscal : scaling_factorF signal rms_level = RFloat.pinf ∨
      scaling_factorF signal rms_level = RFloat.nan := by
    simp only [scaling_factorF]
    rw [hsum, mul_fin, mul_fin]
    by_cases hnil : signal = []
    · subst hnil
      right
      norm_num [RFloat.div, RFloat.sqrtF]
    · left
      have hx : (0 : ℝ) < (signal.length : ℝ) *
          ((10 : ℝ) ^ (rms_level / 10) * (10 : ℝ) ^ (rms_level / 10)) := by
        have hNpos : 0 < signal.length := List.length_pos.mpr hnil
        have hN : (0 : ℝ) < (signal.length : ℝ) := by exact_mod_cast hNpos
        have hr : (0 : ℝ) < (10 : ℝ) ^ (rms_level / 10) :=
          Real.rpow_pos_of_pos (by norm_num) _
        positivity
      rw [RFloat.div]
      rw [if_pos rfl, if_neg hx.ne', if_pos hx]
      rfl
  refine ⟨hsum, hscal, ?_⟩
  intro y hy
  rw [normalizeF] at hy
  obtain ⟨s, hs, rfl⟩ := List.mem_map.mp hy
  rw [hz s hs]
  rcases hscal with hh | hh <;> rw [hh] <;> simp [RFloat.mul]

/-- C8 witness: the one-sample all-zero signal at `0` dB. -/
theorem c8_all_zero_silent_nan_witness :
    sumF (([RFloat.fin 0] : List RFloat).map (fun s => RFloat.mul s s)) = RFloat.fin 0
  ∧ (scaling_factorF [RFloat.fin 0] 0 = RFloat.pinf ∨
      scaling_factorF [RFloat.fin 0] 0 = RFloat.nan)
  ∧ ∀ y ∈ normalizeF [RFloat.fin 0] 0, y = RFloat.nan :=
  c8_all_zero_silent_nan [RFloat.fin 0] 0 (fun s hs => by simpa using hs)

/-- C10: for equal-length inputs whose reference is a nonempty constant
signal, the variance denominator of `nmse_error` is the finite zero and
the result of the unguarded division is non-finite (`nan` or an infinity),
returned normally rather than raised as an error. -/
theorem c10_nmse_zero_variance (signal reference_signal : List RFloat) (c : ℝ)
    (hlen : signal.length = reference_signal.length)
    (hne : reference_signal ≠ [])
    (hc : ∀ x ∈ reference_signal, x = RFloat.fin c) :
    meanF (reference_signal.map (fun x =>
      RFloat.mul (RFloat.sub x (meanF reference_signal))
        (RFloat.sub x (meanF reference_signal)))) = RFloat.fin 0
  ∧ ¬ (nmse_errorF signal reference_signal).isFinite := by
  have hden := variance_denominatorF_zero c reference_signal hne hc
  refine ⟨hden, ?_⟩
  rw [nmse_errorF, if_neg (fun hne2 => hne2 hlen), hden]
  exact div_fin_zero_not_finite _

/-- C10 witness: `[1]` against the constant reference `[2]`. -/
theorem c10_nmse_zero_variance_witness :
    meanF (([RFloat.fin 2] : List RFloat).map (fun x =>
      RFloat.mul (RFloat.sub x (meanF [RFloat.fin 2]))
        (RFloat.sub x (meanF [RFloat.fin 2])))) = RFloat.fin 0
  ∧ ¬ (nmse_errorF [RFloat.fin 1] [RFloat.fin 2]).isFinite :=
  c10_nmse_zero_variance [RFloat.fin 1] [RFloat.fin 2] 2 rfl
    (List.cons_ne_nil _ _) (fun x hx => by simpa using hx)

end Poliphone
